import Mathlib

/-!
# Verification of the py_name_entity_recognition core

A shallow embedding of the repository's core subsystems — tokenizer/aligner,
span locator, chunk merger with its position-based confidence heuristic,
BIOES codec, schema flattening, and the extraction engine with its
hallucination filter and bounded agentic retry loop — together with theorems
settling the specification's claims about them.

The repository's implementation modules (`data_handling/merging.py`,
`data_handling/io.py`, `core/engine.py`, `schemas/core_schemas.py`) are not
present in the source tree; only their tests are.  Every definition below is
therefore modelled from the specification's words (and, where the
specification under-determines behaviour, from the expectations recorded in
the repository's unit tests), as indicated in each doc comment.
-/

namespace PyNER

/-- Modelled from the spec: a token is `(text, start, end)` with a half-open
character offset `[start, end)` into the owning text. -/
structure Token where
  text : String
  start : Nat
  stop : Nat
deriving DecidableEq, Repr

/-- Modelled from the spec: `BaseEntity` is `(type, text)`, immutable and
value-equal. -/
structure BaseEntity where
  type : String
  text : String
deriving DecidableEq, Repr

/-- Modelled from the spec: `ChunkResult` is `(entities, window_start,
window_end)` — one LLM call's output plus the half-open char range of the
window it was computed over, in original-document coordinates. -/
structure ChunkResult where
  entities : List BaseEntity
  winStart : Nat
  winStop : Nat
deriving DecidableEq, Repr

/-- Modelled from the spec: `SpanAssignment` is `(type, start, end,
confidence)` — one resolved occurrence of an entity inside the document. -/
structure SpanAssignment where
  type : String
  start : Nat
  stop : Nat
  confidence : ℚ
deriving DecidableEq, Repr

/-! ## Tokenizer / Aligner -/

/-- Punctuation characters that the tokenizer emits as single-character
tokens (hyphens, sentence punctuation, brackets). -/
def isPunct (c : Char) : Bool :=
  c = '.' || c = ',' || c = '-' || c = '(' || c = ')' || c = ';' ||
  c = ':' || c = '!' || c = '?' || c = '"'

/-- A character that belongs to a word token: neither whitespace nor
punctuation. -/
def wordChar (c : Char) : Bool := !c.isWhitespace && !isPunct c

/-- Abbreviations whose trailing period stays attached to the word, per the
repository's test expectations (`"Dr."`, `"Corp."` are single tokens). -/
def abbreviations : List String :=
  ["Dr.", "Mr.", "Mrs.", "Ms.", "Prof.", "Corp.", "Inc.", "Ltd.", "St."]

/-- Modelled from the spec: the Tokenizer/Aligner splits raw text into tokens
with character offsets; whitespace is dropped as a separator, punctuation
(hyphens, sentence-final periods, commas, brackets) forms its own
single-character token, and an abbreviation period (e.g. `"Corp."`) stays
attached to its word.  `fuel` bounds the recursion; `tokenize` supplies
enough fuel for the whole input. -/
def tokenizeAux : Nat → List Char → Nat → List Token
  | 0, _, _ => []
  | _ + 1, [], _ => []
  | fuel + 1, c :: cs, pos =>
    if c.isWhitespace then tokenizeAux fuel cs (pos + 1)
    else if wordChar c then
      let w := (c :: cs).takeWhile wordChar
      let rest := (c :: cs).dropWhile wordChar
      match rest with
      | '.' :: rest2 =>
        if (String.mk w ++ ".") ∈ abbreviations then
          ⟨String.mk w ++ ".", pos, pos + w.length + 1⟩ ::
            tokenizeAux fuel rest2 (pos + w.length + 1)
        else
          ⟨String.mk w, pos, pos + w.length⟩ ::
            tokenizeAux fuel rest (pos + w.length)
      | _ =>
        ⟨String.mk w, pos, pos + w.length⟩ ::
          tokenizeAux fuel rest (pos + w.length)
    else
      ⟨String.mk [c], pos, pos + 1⟩ :: tokenizeAux fuel cs (pos + 1)

/-- Tokenize a whole character list. -/
def tokenize (cs : List Char) : List Token := tokenizeAux cs.length cs 0

/-! ## Span Locator -/

/-- Scan the haystack left to right for non-overlapping matches of the
(non-empty) needle `n0 :: ns`, restarting after each match's end.  `fuel`
bounds the recursion. -/
def findFrom (n0 : Char) (ns : List Char) : Nat → List Char → Nat → List (Nat × Nat)
  | 0, _, _ => []
  | _ + 1, [], _ => []
  | fuel + 1, c :: cs, pos =>
    if (n0 :: ns).isPrefixOf (c :: cs) then
      (pos, pos + ns.length + 1) ::
        findFrom n0 ns fuel (cs.drop ns.length) (pos + ns.length + 1)
    else
      findFrom n0 ns fuel cs (pos + 1)

/-- Modelled from the spec: the Span Locator's
`find_occurrences(needle, haystack)` returns all non-overlapping exact
(case-sensitive, literal) matches of `needle` in `haystack`, left to right,
as half-open `(start, end)` pairs.  An empty needle yields no occurrences. -/
def find_occurrences (needle hay : List Char) : List (Nat × Nat) :=
  match needle with
  | [] => []
  | n0 :: ns => findFrom n0 ns hay.length hay 0

/-- A locator in the merger is fallible: the underlying search primitive may
fail (malformed escaped pattern), in which case the error is swallowed by
the caller.  The default locator never fails. -/
def defaultLocator (needle hay : List Char) : Except String (List (Nat × Nat)) :=
  Except.ok (find_occurrences needle hay)

/-- Does `needle` occur at all in `hay`?  (Used by the hallucination
filter.) -/
def occursIn (needle hay : List Char) : Bool :=
  !(find_occurrences needle hay).isEmpty

/-! ## Confidence score -/

/-- Modelled from the spec: the Chunk Merger's
`_calculate_confidence(occurrence_start, window_start, window_end)`:
`relative_position = (occurrence_start - window_start) / (window_end -
window_start)` (`0.0` for a zero-length window), and
`confidence = 1.0 - 2 * |relative_position - 0.5|`.  The value is built as
the single normalized fraction `(n - |2*(s - ws) - n|) / n` with
`n = we - ws`, which equals the spec's formula (proved in
`confidence_formula`) while keeping the rational kernel-computable. -/
def calculate_confidence (s ws we : Nat) : ℚ :=
  if we = ws then 0
  else
    let n : Int := (we : Int) - (ws : Int)
    let d : Int := (s : Int) - (ws : Int)
    mkRat (n - (2 * d - n).natAbs) (we - ws)

/-! ## Chunk Merger -/

/-- Does assignment `a`'s span contain token `t` (token offsets fall inside
`[a.start, a.stop)`)? -/
def covers (a : SpanAssignment) (t : Token) : Bool :=
  decide (a.start ≤ t.start ∧ t.stop ≤ a.stop)

/-- Collect, walking the token list with a running index, the indices of the
tokens covered by an assignment's span. -/
def spanTokensAux (a : SpanAssignment) : List Token → Nat → List Nat
  | [], _ => []
  | t :: ts, i =>
    if covers a t then i :: spanTokensAux a ts (i + 1) else spanTokensAux a ts (i + 1)

/-- Indices of the tokens whose offsets fall inside an assignment's span. -/
def spanTokens (tokens : List Token) (a : SpanAssignment) : List Nat :=
  spanTokensAux a tokens 0

/-- Map a function of (index, element) over a list, the index starting at
`i0`. -/
def mapWithIdx (f : Nat → α → β) : List α → Nat → List β
  | [], _ => []
  | x :: xs, i => f i x :: mapWithIdx f xs (i + 1)

/-- The BIOES tag for position `k` of a token run of length `len`. -/
def biesTag (ty : String) (k len : Nat) : String :=
  if len = 1 then "S-" ++ ty
  else if k = 0 then "B-" ++ ty
  else if k = len - 1 then "E-" ++ ty
  else "I-" ++ ty

/-- Modelled from the spec: emit one accepted SpanAssignment into the
per-token tag state (`none` = unclaimed, i.e. would be `O`).  A token already
claimed by an earlier-accepted span is not reassigned; the B/I/E/S position
is computed within the assignment's (unclaimed) token run. -/
def applyAssignment (tokens : List Token) (tags : List (Option String))
    (a : SpanAssignment) : List (Option String) :=
  let run := (spanTokens tokens a).filter (fun i => (tags.getD i none).isNone)
  mapWithIdx
    (fun i t =>
      if i ∈ run then some (biesTag a.type (run.indexOf i) run.length) else t)
    tags 0

/-- Modelled from the spec (§4.3 steps 4–5): walk the accepted assignments in
resolution order, claiming tokens first-accepted-first; unclaimed tokens get
`O`. -/
def emitTags (tokens : List Token) (accepted : List SpanAssignment) : List String :=
  (accepted.foldl (applyAssignment tokens)
    (List.replicate tokens.length (none : Option String))).map (fun o => o.getD "O")

/-- Modelled from the spec (§4.3 step 2): for one ChunkResult, locate every
occurrence of each entity's text anywhere in the full text; keep the
occurrences whose start falls within the producing window, scoring each with
the position-based confidence.  A locator failure for an entity is swallowed:
that entity contributes zero occurrences. -/
def chunkCandidates (loc : List Char → List Char → Except String (List (Nat × Nat)))
    (fullText : List Char) (cr : ChunkResult) : List SpanAssignment :=
  cr.entities.flatMap (fun e =>
    match loc e.text.data fullText with
    | Except.error _ => []
    | Except.ok occs =>
      (occs.filter (fun p => decide (cr.winStart ≤ p.1 ∧ p.1 < cr.winStop))).map
        (fun p => ⟨e.type, p.1, p.2, calculate_confidence p.1 cr.winStart cr.winStop⟩))

/-- All candidate SpanAssignments of a merge call, in first-seen order. -/
def candidates (loc : List Char → List Char → Except String (List (Nat × Nat)))
    (fullText : List Char) (chunks : List ChunkResult) : List SpanAssignment :=
  chunks.flatMap (chunkCandidates loc fullText)

/-- Do two assignments have the exact same `(start, stop)` span? -/
def sameSpan (a b : SpanAssignment) : Bool :=
  decide (a.start = b.start ∧ a.stop = b.stop)

/-- Modelled from the spec (§4.3 step 3): fold one candidate into the
accepted list.  A new span is appended; on an identical-span conflict the
already-accepted assignment is replaced only when the newcomer's confidence
is strictly greater (ties keep the first-seen). -/
def insertCand (acc : List SpanAssignment) (a : SpanAssignment) : List SpanAssignment :=
  if acc.any (fun b => sameSpan a b) then
    acc.map (fun b => if sameSpan a b && decide (b.confidence < a.confidence) then a else b)
  else acc ++ [a]

/-- Group candidates by exact span and resolve conflicts, in first-seen
order. -/
def resolveSpans (cands : List SpanAssignment) : List SpanAssignment :=
  cands.foldl insertCand []

/-- The Chunk Merger over an explicit (fallible) span locator. -/
def mergeWith (loc : List Char → List Char → Except String (List (Nat × Nat)))
    (fullText : String) (chunks : List ChunkResult) : List (String × String) :=
  let tokens := tokenize fullText.data
  let accepted := resolveSpans (candidates loc fullText.data chunks)
  (tokens.map Token.text).zip (emitTags tokens accepted)

/-- Modelled from the spec: `ChunkMerger.merge(full_text, chunk_results)` —
one `(token_text, tag)` entry per token of the full text. -/
def merge (fullText : String) (chunks : List ChunkResult) : List (String × String) :=
  mergeWith defaultLocator fullText chunks

/-! ## BIOES codec -/

/-- Space-join of accumulated token texts. -/
def joinSpace : List String → String
  | [] => ""
  | [x] => x
  | x :: xs => x ++ " " ++ joinSpace xs

/-- Parse a tag string into its kind letter and entity type; `none` for `O`
or anything unparsable. -/
def tagKind (tag : String) : Option (Char × String) :=
  match tag.data with
  | k :: '-' :: rest =>
    if k = 'B' || k = 'I' || k = 'E' || k = 'S' then some (k, String.mk rest) else none
  | _ => none

/-- Modelled from the spec (§4.4): the left-to-right BIOES decode scan.  The
state is the open accumulator (entity type and collected token texts).
`B-` opens (flushing any open accumulator), `I-` appends, `E-` appends and
closes, `S-` materializes a single-token entity (flushing any open
accumulator), a dangling accumulator is closed at end of input, and an
`I-`/`E-` with no open accumulator is tolerated; the scan never fails. -/
def bioresAux : Option (String × List String) → List (String × String) → List BaseEntity
  | none, [] => []
  | some (ty, acc), [] => [⟨ty, joinSpace acc⟩]
  | st, (tok, tag) :: rest =>
    match tagKind tag, st with
    | some ('B', ty), none => bioresAux (some (ty, [tok])) rest
    | some ('B', ty), some (ty0, acc) =>
      ⟨ty0, joinSpace acc⟩ :: bioresAux (some (ty, [tok])) rest
    | some ('I', _), some (ty0, acc) => bioresAux (some (ty0, acc ++ [tok])) rest
    | some ('I', _), none => bioresAux none rest
    | some ('E', _), some (ty0, acc) =>
      ⟨ty0, joinSpace (acc ++ [tok])⟩ :: bioresAux none rest
    | some ('E', _), none => bioresAux none rest
    | some ('S', ty), none => ⟨ty, tok⟩ :: bioresAux none rest
    | some ('S', ty), some (ty0, acc) =>
      ⟨ty0, joinSpace acc⟩ :: ⟨ty, tok⟩ :: bioresAux none rest
    | _, st' => bioresAux st' rest

/-- Modelled from the spec: `biores_to_entities(tagged_tokens)` — the BIOES
codec's inverse direction. -/
def biores_to_entities (tagged : List (String × String)) : List BaseEntity :=
  bioresAux none tagged

/-- Modelled from the spec (§4.4): `entities_to_tags(full_text, assignments)`
is exactly the merger's emission step over the accepted assignments. -/
def entities_to_tags (fullText : String) (assignments : List SpanAssignment) :
    List (String × String) :=
  let tokens := tokenize fullText.data
  (tokens.map Token.text).zip (emitTags tokens assignments)

/-! ## Schema instances and flattening -/

/-- Modelled from the spec (§9 design note): a schema instance is a closed
recursive variant — a scalar leaf (possibly `None`), a list field, or an
object with named fields — walked generically by the flattening routine. -/
inductive SchemaInstance where
  | leaf : Option String → SchemaInstance
  | arr : List SchemaInstance → SchemaInstance
  | node : List (String × SchemaInstance) → SchemaInstance

/-- Normalize a field name to its canonical capitalization: first character
upper-cased, the rest lower-cased (`flight_number` → `Flight_number`). -/
def capitalizeName (s : String) : String :=
  match s.data with
  | [] => ""
  | c :: cs => String.mk (c.toUpper :: cs.map Char.toLower)

mutual

/-- Modelled from the spec (§4.5 step 2): flatten a schema-instance value
reached under field name `name` into `BaseEntity` values.  A non-empty scalar
leaf becomes one entity typed by the capitalized field name; `None`/empty
leaves are dropped; list fields contribute one entity per element under the
same field name; object fields recurse under their own field names. -/
def flattenValue (name : String) : SchemaInstance → List BaseEntity
  | .leaf none => []
  | .leaf (some t) => if t = "" then [] else [⟨capitalizeName name, t⟩]
  | .arr items => flattenList name items
  | .node fields => flattenFields fields

/-- Flatten the elements of a list field, all under the field's name. -/
def flattenList (name : String) : List SchemaInstance → List BaseEntity
  | [] => []
  | v :: vs => flattenValue name v ++ flattenList name vs

/-- Flatten an object's named fields in declaration order. -/
def flattenFields : List (String × SchemaInstance) → List BaseEntity
  | [] => []
  | (n, v) :: fs => flattenValue n v ++ flattenFields fs

end

/-- Modelled from the spec: `CoreEngine._transform_to_base_entities` — a
top-level schema instance (an object) flattens via its fields; the unused
top-level name is empty. -/
def transform_to_base_entities (inst : SchemaInstance) : List BaseEntity :=
  flattenValue "" inst

/-! ## Chunking strategy -/

/-- One sliding-window step: emit the window at `pos` (clipped to the text
length) and advance by `step` while text remains.  `fuel` bounds the
recursion. -/
def splitAux (text : List Char) (ws step : Nat) : Nat → Nat → List (List Char × Nat × Nat)
  | 0, _ => []
  | fuel + 1, pos =>
    let we := min (pos + ws) text.length
    let win := (text.drop pos).take ws
    if we < text.length then (win, pos, we) :: splitAux text ws step fuel (pos + step)
    else [(win, pos, we)]

/-- Modelled from the spec (§4.1): `split(text, window_size, overlap)` fails
with a `ConfigurationError` when `overlap >= window_size` or
`window_size <= 0`; a text no longer than one window is a single window;
otherwise consecutive windows advance by `window_size - overlap` and the
final window is clipped to the text length. -/
def split (text : List Char) (ws overlap : Nat) :
    Except String (List (List Char × Nat × Nat)) :=
  if ws = 0 ∨ overlap ≥ ws then Except.error "ConfigurationError"
  else if text.length ≤ ws then Except.ok [(text, 0, text.length)]
  else Except.ok (splitAux text ws (ws - overlap) (text.length + 1) 0)

/-! ## Extraction engine -/

/-- Modelled from the spec (§9 design note): the engine's immutable
configuration record — retry budget and chunking parameters. -/
structure EngineConfig where
  maxRetries : Nat
  chunkSize : Nat
  chunkOverlap : Nat

/-- The engine's two execution modes. -/
inductive Mode where
  | lcel
  | agentic
deriving DecidableEq

/-- Modelled from the spec (§4.5 steps 1–4): process one window.  The LLM is
a function from call index to schema instance (the call index threads
through so invocations can be counted); each pass flattens the response and
partitions it by the hallucination filter; in the presence of invalid
entities and remaining retry budget the LLM is re-invoked, and on a clean
validation or an exhausted budget the filtered (valid) entities are emitted
together with the next call index. -/
def processWindow (llm : Nat → SchemaInstance) (window : List Char) :
    Nat → Nat → List BaseEntity × Nat
  | callIdx, retriesLeft =>
    let es := transform_to_base_entities (llm callIdx)
    let valid := es.filter (fun e => occursIn e.text.data window)
    let invalid := es.filter (fun e => !occursIn e.text.data window)
    match retriesLeft with
    | 0 => (valid, callIdx + 1)
    | r + 1 =>
      if invalid.isEmpty then (valid, callIdx + 1)
      else processWindow llm window (callIdx + 1) r

/-- Process every window in order, threading the LLM call index, and collect
one ChunkResult per window. -/
def runWindows (llm : Nat → SchemaInstance) (retries : Nat) :
    List (List Char × Nat × Nat) → Nat → List ChunkResult × Nat
  | [], idx => ([], idx)
  | (win, s, e) :: rest, idx =>
    let (es, idx') := processWindow llm win idx retries
    let (crs, idx'') := runWindows llm retries rest idx'
    (⟨es, s, e⟩ :: crs, idx'')

/-- The per-window corrective retry budget of a mode: none in `lcel` mode,
the configured maximum in `agentic` mode. -/
def modeRetries (cfg : EngineConfig) : Mode → Nat
  | .lcel => 0
  | .agentic => cfg.maxRetries

/-- Modelled from the spec (§4.5): `CoreEngine.run(text, mode)`.  Degenerate
input (absent, empty, or whitespace-only) short-circuits to an empty tag
sequence with zero LLM invocations; otherwise the text is split into
windows, each window is processed (with the mode's retry budget), and the
ChunkResults are handed to the Chunk Merger.  The result also carries the
number of LLM invocations made. -/
def runEngine (cfg : EngineConfig) (llm : Nat → SchemaInstance) (mode : Mode)
    (input : Option String) : Except String (List (String × String) × Nat) :=
  match input with
  | none => Except.ok ([], 0)
  | some text =>
    if text.data.all Char.isWhitespace then Except.ok ([], 0)
    else
      match split text.data cfg.chunkSize cfg.chunkOverlap with
      | Except.error e => Except.error e
      | Except.ok wins =>
        let (chunks, calls) := runWindows llm (modeRetries cfg mode) wins 0
        Except.ok (merge text chunks, calls)

/-! ## Basic structural lemmas -/

theorem mapWithIdx_length (f : Nat → α → β) (l : List α) (i : Nat) :
    (mapWithIdx f l i).length = l.length := by
  induction l generalizing i with
  | nil => rfl
  | cons x xs ih => simp [mapWithIdx, ih]

theorem applyAssignment_length (tokens : List Token) (tags : List (Option String))
    (a : SpanAssignment) : (applyAssignment tokens tags a).length = tags.length := by
  simp [applyAssignment, mapWithIdx_length]

theorem foldl_applyAssignment_length (tokens : List Token)
    (accepted : List SpanAssignment) (tags : List (Option String)) :
    (accepted.foldl (applyAssignment tokens) tags).length = tags.length := by
  induction accepted generalizing tags with
  | nil => rfl
  | cons a rest ih => simp [List.foldl_cons, ih, applyAssignment_length]

theorem emitTags_length (tokens : List Token) (accepted : List SpanAssignment) :
    (emitTags tokens accepted).length = tokens.length := by
  simp [emitTags, foldl_applyAssignment_length]

theorem emitTags_nil (tokens : List Token) :
    emitTags tokens [] = List.replicate tokens.length "O" := by
  simp [emitTags]

theorem zip_map_replicate (l : List α) (f : α → β) (c : γ) :
    (l.map f).zip (List.replicate l.length c) = l.map (fun t => (f t, c)) := by
  induction l with
  | nil => rfl
  | cons x xs ih => simp [List.replicate_succ, ih]

theorem mergeWith_map_fst
    (loc : List Char → List Char → Except String (List (Nat × Nat)))
    (fullText : String) (chunks : List ChunkResult) :
    (mergeWith loc fullText chunks).map Prod.fst =
      (tokenize fullText.data).map Token.text := by
  unfold mergeWith
  apply List.map_fst_zip
  simp [emitTags_length]

theorem candidates_eq_nil_of_no_entities
    (loc : List Char → List Char → Except String (List (Nat × Nat)))
    (fullText : List Char) (chunks : List ChunkResult)
    (h : ∀ cr ∈ chunks, cr.entities = []) :
    candidates loc fullText chunks = [] := by
  induction chunks with
  | nil => rfl
  | cons cr rest ih =>
    have hcr : cr.entities = [] := h cr (by simp)
    simp only [candidates, List.flatMap_cons]
    rw [show chunkCandidates loc fullText cr = [] by simp [chunkCandidates, hcr]]
    simpa [candidates] using ih (fun c hc => h c (by simp [hc]))

theorem mergeWith_all_O_of_candidates_nil
    (loc : List Char → List Char → Except String (List (Nat × Nat)))
    (fullText : String) (chunks : List ChunkResult)
    (h : candidates loc fullText.data chunks = []) :
    mergeWith loc fullText chunks =
      (tokenize fullText.data).map (fun t => (t.text, "O")) := by
  simp only [mergeWith, h, resolveSpans, List.foldl_nil]
  rw [emitTags_nil, zip_map_replicate]

theorem tokenizeAux_all_whitespace (fuel : Nat) :
    ∀ (cs : List Char) (pos : Nat), cs.all Char.isWhitespace = true →
      tokenizeAux fuel cs pos = [] := by
  induction fuel with
  | zero => intro cs pos _; rfl
  | succ fuel ih =>
    intro cs pos h
    cases cs with
    | nil => rfl
    | cons c cs =>
      simp only [List.all_cons, Bool.and_eq_true] at h
      simp [tokenizeAux, h.1, ih cs (pos + 1) h.2]

theorem tokenize_all_whitespace (cs : List Char)
    (h : cs.all Char.isWhitespace = true) : tokenize cs = [] :=
  tokenizeAux_all_whitespace cs.length cs 0 h

/-! ## Claim C2: the position-based confidence score -/

/-- **C2.** For every occurrence start `s` and window `[ws, we)`, the
merger's confidence score equals `1.0 - 2 * |(s - ws)/(we - ws) - 0.5|`
when `we > ws`, and `0.0` when the window has zero length; it is `1.0`
exactly at the window midpoint and `0.0` at either window edge. -/
theorem confidence_formula (s ws we : Nat) :
    (we = ws → calculate_confidence s ws we = 0) ∧
    (ws < we →
      calculate_confidence s ws we =
        1 - 2 * |((s : ℚ) - (ws : ℚ)) / ((we : ℚ) - (ws : ℚ)) - 1/2|) ∧
    (ws < we → (calculate_confidence s ws we = 1 ↔ 2 * s = ws + we)) ∧
    (ws < we → s = ws → calculate_confidence s ws we = 0) ∧
    (ws < we → s = we → calculate_confidence s ws we = 0) := by
  have hform : ∀ _ : ws < we,
      calculate_confidence s ws we =
        1 - 2 * |((s : ℚ) - (ws : ℚ)) / ((we : ℚ) - (ws : ℚ)) - 1/2| := by
    intro hlt
    unfold calculate_confidence
    rw [if_neg (by omega), Rat.mkRat_eq_div]
    have hd0 : (0 : ℚ) < (we : ℚ) - (ws : ℚ) := by
      have : (ws : ℚ) < (we : ℚ) := by exact_mod_cast hlt
      linarith
    have hnum : ((((we : Int) - (ws : Int)) -
        ((2 * ((s : Int) - (ws : Int)) - ((we : Int) - (ws : Int))).natAbs) : Int) : ℚ) =
        ((we : ℚ) - (ws : ℚ)) - |2 * ((s : ℚ) - (ws : ℚ)) - ((we : ℚ) - (ws : ℚ))| := by
      push_cast [Int.cast_natAbs]
      ring_nf
    have hden : ((we - ws : ℕ) : ℚ) = (we : ℚ) - (ws : ℚ) := by
      push_cast [Nat.cast_sub (le_of_lt hlt)]
      ring
    rw [hnum, hden]
    have habs : |((s : ℚ) - (ws : ℚ)) / ((we : ℚ) - (ws : ℚ)) - 1/2| =
        |2 * ((s : ℚ) - (ws : ℚ)) - ((we : ℚ) - (ws : ℚ))| /
          (2 * ((we : ℚ) - (ws : ℚ))) := by
      rw [show ((s : ℚ) - (ws : ℚ)) / ((we : ℚ) - (ws : ℚ)) - 1/2 =
          (2 * ((s : ℚ) - (ws : ℚ)) - ((we : ℚ) - (ws : ℚ))) /
            (2 * ((we : ℚ) - (ws : ℚ))) by
        field_simp
        ring]
      rw [abs_div, abs_of_pos (by linarith : (0 : ℚ) < 2 * ((we : ℚ) - (ws : ℚ)))]
    rw [habs]
    field_simp
    ring
  refine ⟨fun h => by unfold calculate_confidence; rw [if_pos h], hform, ?_, ?_, ?_⟩
  · intro hlt
    have hd : ((we : ℚ) - (ws : ℚ)) ≠ 0 := by
      have : (ws : ℚ) < (we : ℚ) := by exact_mod_cast hlt
      linarith
    rw [hform hlt]
    constructor
    · intro h
      have habs : |((s : ℚ) - (ws : ℚ)) / ((we : ℚ) - (ws : ℚ)) - 1/2| = 0 := by
        linarith
      have hz : ((s : ℚ) - (ws : ℚ)) / ((we : ℚ) - (ws : ℚ)) - 1/2 = 0 :=
        abs_eq_zero.mp habs
      have hq : ((s : ℚ) - (ws : ℚ)) = ((we : ℚ) - (ws : ℚ)) * (1/2) := by
        have := sub_eq_zero.mp hz
        rw [div_eq_iff hd] at this
        linarith [this]
      have h2 : 2 * (s : ℚ) = (ws : ℚ) + (we : ℚ) := by linarith
      exact_mod_cast h2
    · intro h
      have h2 : 2 * (s : ℚ) = (ws : ℚ) + (we : ℚ) := by exact_mod_cast h
      have hz : ((s : ℚ) - (ws : ℚ)) / ((we : ℚ) - (ws : ℚ)) - 1/2 = 0 := by
        rw [sub_eq_zero, div_eq_iff hd]
        linarith
      rw [hz, abs_zero]
      ring
  · intro hlt hs
    rw [hform hlt, hs]
    rw [sub_self, zero_div, zero_sub, abs_neg, abs_of_nonneg (by norm_num : (0:ℚ) ≤ 1/2)]
    ring
  · intro hlt hs
    have hd : ((we : ℚ) - (ws : ℚ)) ≠ 0 := by
      have : (ws : ℚ) < (we : ℚ) := by exact_mod_cast hlt
      linarith
    rw [hform hlt, hs, div_self hd]
    rw [show (1 : ℚ) - 1/2 = 1/2 by norm_num, abs_of_nonneg (by norm_num : (0:ℚ) ≤ 1/2)]
    ring

/-- Witness for C2 at the tests' concrete inputs: window `[0,100)` with the
occurrence at the midpoint `50`, at the edge `0`, and the zero-length
window. -/
theorem confidence_formula_witness :
    calculate_confidence 0 0 0 = 0 ∧
    (calculate_confidence 50 0 100 = 1 ↔ 2 * 50 = 0 + 100) ∧
    calculate_confidence 0 0 100 = 0 := by
  refine ⟨(confidence_formula 0 0 0).1 rfl,
    (confidence_formula 50 0 100).2.2.1 (by norm_num),
    (confidence_formula 0 0 100).2.2.2.1 (by norm_num) rfl⟩

/-! ## Claim C6: degenerate input short-circuit -/

/-- **C6.** For every degenerate input — absent (`none`), the empty string,
or a whitespace-only string — the Extraction Engine returns an empty tag
sequence with exactly zero LLM invocations and no error. -/
theorem engine_degenerate_input (cfg : EngineConfig) (llm : Nat → SchemaInstance)
    (mode : Mode) :
    runEngine cfg llm mode none = Except.ok ([], 0) ∧
    runEngine cfg llm mode (some "") = Except.ok ([], 0) ∧
    (∀ s : String, s.data.all Char.isWhitespace = true →
      runEngine cfg llm mode (some s) = Except.ok ([], 0)) := by
  refine ⟨rfl, rfl, fun s hs => ?_⟩
  simp [runEngine, hs]

/-- Witness for C6 at the tests' concrete whitespace-only input `"   "`. -/
theorem engine_degenerate_input_witness :
    runEngine ⟨3, 1000, 100⟩ (fun _ => SchemaInstance.node []) Mode.lcel
      (some "   ") = Except.ok ([], 0) :=
  (engine_degenerate_input ⟨3, 1000, 100⟩ (fun _ => SchemaInstance.node [])
    Mode.lcel).2.2 "   " (by decide)

/-! ## Claim C9: merge covers every token exactly once -/

/-- **C9.** For every full text and every sequence of ChunkResults, `merge`
returns exactly one `(token_text, tag)` pair per token of the full text, in
token order, covering the entire text; with empty `chunk_results`, or chunks
with empty entity lists, every tag is `O`. -/
theorem merge_covers_all_tokens (fullText : String) (chunks : List ChunkResult) :
    (merge fullText chunks).map Prod.fst = (tokenize fullText.data).map Token.text ∧
    (merge fullText chunks).length = (tokenize fullText.data).length ∧
    merge fullText [] = (tokenize fullText.data).map (fun t => (t.text, "O")) ∧
    ((∀ cr ∈ chunks, cr.entities = []) →
      merge fullText chunks = (tokenize fullText.data).map (fun t => (t.text, "O"))) := by
  refine ⟨mergeWith_map_fst _ _ _, ?_, ?_, ?_⟩
  · have h := mergeWith_map_fst defaultLocator fullText chunks
    have := congrArg List.length h
    simpa using this
  · exact mergeWith_all_O_of_candidates_nil _ _ _ rfl
  · intro h
    exact mergeWith_all_O_of_candidates_nil _ _ _
      (candidates_eq_nil_of_no_entities _ _ _ h)

/-- Witness for C9 at the tests' concrete input: two chunks with no entities
over `"Alice lives in Paris."` yield the all-`O` sequence. -/
theorem merge_covers_all_tokens_witness :
    merge "Alice lives in Paris." [⟨[], 0, 12⟩, ⟨[], 10, 21⟩] =
      (tokenize "Alice lives in Paris.".data).map (fun t => (t.text, "O")) :=
  (merge_covers_all_tokens "Alice lives in Paris."
    [⟨[], 0, 12⟩, ⟨[], 10, 21⟩]).2.2.2 (by decide)

/-! ## Claim C10: punctuation tokenization and hyphenated entities -/

/-- **C10.** The tokenizer splits hyphens and sentence-final periods into
their own tokens while an abbreviation period (`"Corp."`) stays attached to
its word, so an entity with an internal hyphen (`"Jean-Pierre"`) is emitted
as a three-token `B-`/`I-`/`E-` run rather than a single `S-` token. -/
theorem tokenizer_punctuation_splitting :
    (tokenize "Jane Doe works at Acme Corp.".data).map Token.text =
      ["Jane", "Doe", "works", "at", "Acme", "Corp."] ∧
    (tokenize "John Doe lives in New York.".data).map Token.text =
      ["John", "Doe", "lives", "in", "New", "York", "."] ∧
    merge "Jean-Pierre habite a Paris et travaille pour Airbus."
      [⟨[⟨"Personne", "Jean-Pierre"⟩, ⟨"Lieu", "Paris"⟩, ⟨"Entreprise", "Airbus"⟩],
        0, 52⟩] =
      [("Jean", "B-Personne"), ("-", "I-Personne"), ("Pierre", "E-Personne"),
       ("habite", "O"), ("a", "O"), ("Paris", "S-Lieu"), ("et", "O"),
       ("travaille", "O"), ("pour", "O"), ("Airbus", "S-Entreprise"),
       (".", "O")] := by
  refine ⟨by decide, by decide, by decide⟩

/-! ## Claim C8: locator failures are swallowed -/

/-- A chunk whose every entity hits a failing search contributes no
candidates. -/
theorem chunkCandidates_error (msg : String) (fullText : List Char)
    (cr : ChunkResult) :
    chunkCandidates (fun _ _ => Except.error msg) fullText cr = [] := by
  obtain ⟨es, ws, we⟩ := cr
  induction es with
  | nil => rfl
  | cons e es ih => simp [chunkCandidates]

theorem candidates_error (msg : String) (fullText : List Char)
    (chunks : List ChunkResult) :
    candidates (fun _ _ => Except.error msg) fullText chunks = [] := by
  induction chunks with
  | nil => rfl
  | cons cr rest ih =>
    simp [candidates, chunkCandidates_error]

/-- **C8.** A failure of the Span Locator's underlying search is swallowed
inside the merger: an entity whose search fails contributes zero
occurrences, no exception propagates out of `merge`, and the remaining
tokens are still emitted (tagged `O` when no other entity claims them). -/
theorem locator_failure_swallowed :
    (∀ (loc : List Char → List Char → Except String (List (Nat × Nat)))
       (fullText : String) (chunks : List ChunkResult),
      (mergeWith loc fullText chunks).map Prod.fst =
        (tokenize fullText.data).map Token.text) ∧
    (∀ (loc : List Char → List Char → Except String (List (Nat × Nat)))
       (fullText : List Char) (e : BaseEntity) (ws we : Nat) (msg : String),
      loc e.text.data fullText = Except.error msg →
      chunkCandidates loc fullText ⟨[e], ws, we⟩ = []) ∧
    (∀ (loc : List Char → List Char → Except String (List (Nat × Nat)))
       (fullText : List Char) (es1 es2 : List BaseEntity) (ws we : Nat),
      chunkCandidates loc fullText ⟨es1 ++ es2, ws, we⟩ =
        chunkCandidates loc fullText ⟨es1, ws, we⟩ ++
          chunkCandidates loc fullText ⟨es2, ws, we⟩) ∧
    (∀ (msg : String) (fullText : String) (chunks : List ChunkResult),
      mergeWith (fun _ _ => Except.error msg) fullText chunks =
        (tokenize fullText.data).map (fun t => (t.text, "O"))) ∧
    mergeWith (fun _ _ => Except.error "test error") "He said (hello."
        [⟨[⟨"GREETING", "("⟩], 0, 15⟩] =
      [("He", "O"), ("said", "O"), ("(", "O"), ("hello", "O"), (".", "O")] := by
  refine ⟨mergeWith_map_fst, ?_, ?_, ?_, ?_⟩
  · intro loc fullText e ws we msg h
    simp [chunkCandidates, h]
  · intro loc fullText es1 es2 ws we
    simp [chunkCandidates]
  · intro msg fullText chunks
    exact mergeWith_all_O_of_candidates_nil _ _ _ (candidates_error msg _ chunks)
  · decide

/-- Witness for C8, mirroring `test_merge_invalid_regex_in_entity`: the
always-failing locator on the entity `"("` contributes zero candidates. -/
theorem locator_failure_swallowed_witness :
    chunkCandidates (fun _ _ => Except.error "test error")
      "He said (hello.".data ⟨[⟨"GREETING", "("⟩], 0, 15⟩ = [] :=
  locator_failure_swallowed.2.1 (fun _ _ => Except.error "test error")
    "He said (hello.".data ⟨"GREETING", "("⟩ 0 15 "test error" rfl

/-! ## Claim C7: schema flattening -/

mutual

theorem flattenValue_text_ne : ∀ (name : String) (v : SchemaInstance) (e : BaseEntity),
    e ∈ flattenValue name v → e.text ≠ ""
  | _, .leaf none, _ => by intro h; simp [flattenValue] at h
  | name, .leaf (some t), e => by
    intro h
    by_cases ht : t = ""
    · simp [flattenValue, ht] at h
    · simp [flattenValue, ht] at h
      subst h
      exact ht
  | name, .arr items, e => fun h =>
    flattenList_text_ne name items e (by simpa [flattenValue] using h)
  | name, .node fields, e => fun h =>
    flattenFields_text_ne fields e (by simpa [flattenValue] using h)

theorem flattenList_text_ne : ∀ (name : String) (vs : List SchemaInstance)
    (e : BaseEntity), e ∈ flattenList name vs → e.text ≠ ""
  | _, [], _ => by intro h; simp [flattenList] at h
  | name, v :: vs, e => by
    intro h
    rcases List.mem_append.mp (by simpa [flattenList] using h) with h1 | h2
    · exact flattenValue_text_ne name v e h1
    · exact flattenList_text_ne name vs e h2

theorem flattenFields_text_ne : ∀ (fs : List (String × SchemaInstance))
    (e : BaseEntity), e ∈ flattenFields fs → e.text ≠ ""
  | [], _ => by intro h; simp [flattenFields] at h
  | (n, v) :: fs, e => by
    intro h
    rcases List.mem_append.mp (by simpa [flattenFields] using h) with h1 | h2
    · exact flattenValue_text_ne n v e h1
    · exact flattenFields_text_ne fs e h2

end

/-- Flattening a list of scalar leaves keeps exactly the non-null, non-empty
elements, each as one entity under the field's capitalized type name. -/
theorem flattenValue_scalar_list (name : String) (vs : List (Option String)) :
    flattenValue name (.arr (vs.map SchemaInstance.leaf)) =
      ((vs.filterMap id).filter (fun t => t ≠ "")).map
        (fun t => ⟨capitalizeName name, t⟩) := by
  induction vs with
  | nil => rfl
  | cons v vs ih =>
    cases v with
    | none => simpa [flattenValue, flattenList] using ih
    | some t =>
      by_cases ht : t = "" <;>
        simp [flattenValue, flattenList, ht] at ih ⊢ <;>
        simpa [flattenValue] using ih

/-- **C7.** The flattening routine produces exactly one `BaseEntity` per
non-empty scalar leaf, typed by the capitalized field name
(`flight_number` → `Flight_number`); one entity per non-empty non-null
element of a scalar-list field, all sharing the field's type name; it
recurses into nested object fields under their own field names and per
element of list-of-object fields; and it never materializes an entity for a
`None` or empty-string leaf. -/
theorem flatten_schema_instance :
    (∀ (name t : String), t ≠ "" →
      flattenValue name (.leaf (some t)) = [⟨capitalizeName name, t⟩]) ∧
    (∀ name : String, flattenValue name (.leaf none) = [] ∧
      flattenValue name (.leaf (some "")) = []) ∧
    (∀ (name : String) (vs : List (Option String)),
      flattenValue name (.arr (vs.map SchemaInstance.leaf)) =
        ((vs.filterMap id).filter (fun t => t ≠ "")).map
          (fun t => ⟨capitalizeName name, t⟩)) ∧
    (∀ (name : String) (v : SchemaInstance) (items : List SchemaInstance),
      flattenValue name (.arr (v :: items)) =
        flattenValue name v ++ flattenValue name (.arr items)) ∧
    (∀ (name n : String) (v : SchemaInstance) (fs : List (String × SchemaInstance)),
      flattenValue name (.node ((n, v) :: fs)) =
        flattenValue n v ++ flattenValue name (.node fs)) ∧
    capitalizeName "flight_number" = "Flight_number" ∧
    (∀ (name : String) (v : SchemaInstance) (e : BaseEntity),
      e ∈ flattenValue name v → e.text ≠ "") ∧
    transform_to_base_entities
        (.node [("traveler", .leaf (some "John Doe")),
                ("flight", .node [("flight_number", .leaf (some "BA2490")),
                                  ("airline", .leaf (some "British Airways"))])]) =
      [⟨"Traveler", "John Doe"⟩, ⟨"Flight_number", "BA2490"⟩,
       ⟨"Airline", "British Airways"⟩] := by
  refine ⟨fun name t ht => by simp [flattenValue, ht], fun name => ⟨rfl, rfl⟩,
    flattenValue_scalar_list, fun name v items => rfl, fun name n v fs => rfl,
    by decide, flattenValue_text_ne, by decide⟩

/-- Witness for C7 at the tests' concrete inputs: the non-empty leaf
`flight_number = "BA2490"` and a concrete member of a flattened instance. -/
theorem flatten_schema_instance_witness :
    flattenValue "flight_number" (.leaf (some "BA2490")) =
      [⟨"Flight_number", "BA2490"⟩] ∧
    BaseEntity.text ⟨"Traveler", "John Doe"⟩ ≠ "" := by
  constructor
  · exact flatten_schema_instance.1 "flight_number" "BA2490" (by decide)
  · exact flatten_schema_instance.2.2.2.2.2.2.1 "traveler"
      (.leaf (some "John Doe")) ⟨"Traveler", "John Doe"⟩ (by decide)

/-! ## Engine helper lemmas (hallucination filter and retry loop) -/

theorem processWindow_valid_mem (llm : Nat → SchemaInstance) (window : List Char) :
    ∀ (r idx : Nat) (e : BaseEntity), e ∈ (processWindow llm window idx r).1 →
      occursIn e.text.data window = true := by
  intro r
  induction r with
  | zero =>
    intro idx e he
    simp only [processWindow] at he
    exact (List.mem_filter.mp he).2
  | succ r ih =>
    intro idx e he
    simp only [processWindow] at he
    by_cases hinv :
        ((transform_to_base_entities (llm idx)).filter
          (fun e => !occursIn e.text.data window)).isEmpty = true
    · rw [if_pos hinv] at he
      exact (List.mem_filter.mp he).2
    · rw [if_neg hinv] at he
      exact ih (idx + 1) e he

theorem runWindows_valid_mem (llm : Nat → SchemaInstance) (r : Nat) :
    ∀ (wins : List (List Char × Nat × Nat)) (idx : Nat)
      (p : ChunkResult × (List Char × Nat × Nat)),
      p ∈ (runWindows llm r wins idx).1.zip wins →
      ∀ e ∈ p.1.entities, occursIn e.text.data p.2.1 = true := by
  intro wins
  induction wins with
  | nil => intro idx p hp; simp [runWindows] at hp
  | cons w rest ih =>
    intro idx p hp e he
    obtain ⟨win, s, stop⟩ := w
    simp only [runWindows] at hp
    rcases List.mem_cons.mp hp with h | h
    · subst h
      exact processWindow_valid_mem llm win r idx e he
    · exact ih (processWindow llm win idx r).2 p h e he

theorem processWindow_call_bound (llm : Nat → SchemaInstance) (window : List Char) :
    ∀ (r idx : Nat), (processWindow llm window idx r).2 ≤ idx + 1 + r := by
  intro r
  induction r with
  | zero => intro idx; simp [processWindow]
  | succ r ih =>
    intro idx
    simp only [processWindow]
    by_cases hinv :
        ((transform_to_base_entities (llm idx)).filter
          (fun e => !occursIn e.text.data window)).isEmpty = true
    · rw [if_pos hinv]; omega
    · rw [if_neg hinv]
      have := ih (idx + 1)
      omega

theorem split_isOk (text : List Char) (ws ov : Nat) (h1 : 0 < ws) (h2 : ov < ws) :
    ∃ wins, split text ws ov = Except.ok wins := by
  unfold split
  rw [if_neg (by omega)]
  by_cases h : text.length ≤ ws
  · rw [if_pos h]; exact ⟨_, rfl⟩
  · rw [if_neg h]; exact ⟨_, rfl⟩

/-! ## Claim C3: LLM hallucinations are excluded -/

/-- The fake LLM of `test_engine_filters_llm_hallucinations`: it always
reports `Person = ["Jane Doe"]` and the hallucinated
`Location = ["Cupertino"]`. -/
def cupertinoLLM : Nat → SchemaInstance := fun _ =>
  .node [("Person", .arr [.leaf (some "Jane Doe")]),
         ("Location", .arr [.leaf (some "Cupertino")])]

/-- **C3.** Every entity flattened from an LLM response whose text does not
occur verbatim in its window's text is excluded by the hallucination
filter: each window's emitted entity list contains only entities occurring
in that window, at every retry depth; concretely, the hallucinated
`Location:"Cupertino"` never appears in the final tag sequence for
`"Jane Doe works at Acme Corp."`. -/
theorem hallucination_filter :
    (∀ (llm : Nat → SchemaInstance) (window : List Char) (r idx : Nat)
       (e : BaseEntity), e ∈ (processWindow llm window idx r).1 →
       occursIn e.text.data window = true) ∧
    (∀ (llm : Nat → SchemaInstance) (r : Nat)
       (wins : List (List Char × Nat × Nat)) (idx : Nat)
       (p : ChunkResult × (List Char × Nat × Nat)),
       p ∈ (runWindows llm r wins idx).1.zip wins →
       ∀ e ∈ p.1.entities, occursIn e.text.data p.2.1 = true) ∧
    runEngine ⟨3, 1000, 100⟩ cupertinoLLM .lcel
        (some "Jane Doe works at Acme Corp.") =
      Except.ok ([("Jane", "B-Person"), ("Doe", "E-Person"), ("works", "O"),
                  ("at", "O"), ("Acme", "O"), ("Corp.", "O")], 1) := by
  refine ⟨fun llm window r idx => processWindow_valid_mem llm window r idx,
    runWindows_valid_mem, by rfl⟩

/-- Witness for C3 at the concrete hallucination test: the surviving entity
`Person:"Jane Doe"` indeed occurs in the window. -/
theorem hallucination_filter_witness :
    occursIn "Jane Doe".data "Jane Doe works at Acme Corp.".data = true :=
  hallucination_filter.1 cupertinoLLM "Jane Doe works at Acme Corp.".data 0 0
    ⟨"Person", "Jane Doe"⟩ (by decide)

/-! ## Claim C4: agentic retry loop termination and totality -/

/-- The fake LLM of `test_agentic_mode_self_correction`: the first call
hallucinates `Location = ["Paris"]`, the corrected second call drops it. -/
def selfCorrectionLLM : Nat → SchemaInstance := fun i =>
  if i = 0 then
    .node [("Person", .arr [.leaf (some "Dr. Emily Carter")]),
           ("Location", .arr [.leaf (some "Paris")])]
  else
    .node [("Person", .arr [.leaf (some "Dr. Emily Carter")]),
           ("Location", .arr [])]

/-- **C4.** In agentic mode the corrective retry loop for a window makes at
most `1 + max_retries` LLM invocations, and on termination — clean
validation or exhausted budget — the engine returns a complete tag sequence
(one pair per token) containing only validated entities, never an error
(given a valid chunking configuration). -/
theorem agentic_retry_terminates (cfg : EngineConfig)
    (h1 : 0 < cfg.chunkSize) (h2 : cfg.chunkOverlap < cfg.chunkSize) :
    (∀ (llm : Nat → SchemaInstance) (window : List Char) (idx : Nat),
      (processWindow llm window idx cfg.maxRetries).2 ≤ idx + 1 + cfg.maxRetries) ∧
    (∀ (llm : Nat → SchemaInstance) (input : Option String),
      (runEngine cfg llm .agentic input).isOk = true) ∧
    (∀ (llm : Nat → SchemaInstance) (text : String)
       (res : List (String × String) × Nat),
      runEngine cfg llm .agentic (some text) = Except.ok res →
      res.1.map Prod.fst = (tokenize text.data).map Token.text) ∧
    (∀ (llm : Nat → SchemaInstance) (window : List Char) (idx : Nat)
       (e : BaseEntity), e ∈ (processWindow llm window idx cfg.maxRetries).1 →
       occursIn e.text.data window = true) := by
  refine ⟨fun llm window idx => processWindow_call_bound llm window cfg.maxRetries idx,
    ?_, ?_, fun llm window idx => processWindow_valid_mem llm window cfg.maxRetries idx⟩
  · intro llm input
    cases input with
    | none => rfl
    | some text =>
      simp only [runEngine]
      by_cases hw : text.data.all Char.isWhitespace = true
      · rw [if_pos hw]; rfl
      · rw [if_neg hw]
        obtain ⟨wins, hs⟩ := split_isOk text.data cfg.chunkSize cfg.chunkOverlap h1 h2
        rw [hs]
        rfl
  · intro llm text res hres
    simp only [runEngine] at hres
    by_cases hw : text.data.all Char.isWhitespace = true
    · rw [if_pos hw] at hres
      have : res = ([], 0) := by
        injection hres with h
        exact h.symm
      subst this
      simp [tokenize_all_whitespace text.data hw]
    · rw [if_neg hw] at hres
      obtain ⟨wins, hs⟩ := split_isOk text.data cfg.chunkSize cfg.chunkOverlap h1 h2
      rw [hs] at hres
      have hres2 : Except.ok (merge text
          (runWindows llm (modeRetries cfg .agentic) wins 0).1,
          (runWindows llm (modeRetries cfg .agentic) wins 0).2) =
          Except.ok res := hres
      rcases hrw : runWindows llm (modeRetries cfg .agentic) wins 0 with ⟨chunks, calls⟩
      rw [hrw] at hres2
      have : res = (merge text chunks, calls) := by
        injection hres2 with h
        exact h.symm
      subst this
      exact mergeWith_map_fst _ _ _

/-- Witness for C4 at the self-correction test's configuration
(`max_retries = 1`): the agentic run makes exactly two LLM calls and
returns the corrected tag sequence without error. -/
theorem agentic_retry_terminates_witness :
    (processWindow selfCorrectionLLM "Dr. Emily Carter is a chemist.".data 0 1).2 ≤
        0 + 1 + 1 ∧
    (runEngine ⟨1, 1000, 100⟩ selfCorrectionLLM .agentic
        (some "Dr. Emily Carter is a chemist.")).isOk = true := by
  have h := agentic_retry_terminates ⟨1, 1000, 100⟩ (by decide) (by decide)
  exact ⟨h.1 selfCorrectionLLM "Dr. Emily Carter is a chemist.".data 0,
    h.2.1 selfCorrectionLLM (some "Dr. Emily Carter is a chemist.")⟩

/-! ## Claim C1: identical-span conflicts -/

/-- Does assignment `b` have exactly the span `(s, e)`? -/
def keyIs (s e : Nat) (b : SpanAssignment) : Bool :=
  decide (b.start = s ∧ b.stop = e)

/-- Is this tag a `B-` tag (the opening of a multi-token run)? -/
def isBTag (tag : String) : Bool :=
  match tagKind tag with
  | some (k, _) => k = 'B'
  | none => false

/-- Modelled from the spec's words for the conflict rule: among the
identical-span candidates, in first-seen order, the accepted assignment is
the one with the strictly greatest confidence, ties broken by first-seen
order — i.e. the first candidate attaining the maximum confidence. -/
def bestCandidate : Option SpanAssignment → List SpanAssignment → Option SpanAssignment
  | cur, [] => cur
  | none, a :: rest => bestCandidate (some a) rest
  | some b, a :: rest =>
    bestCandidate (some (if b.confidence < a.confidence then a else b)) rest

theorem sameSpan_eq_keyIs {s e : Nat} {a : SpanAssignment}
    (ha : keyIs s e a = true) (b : SpanAssignment) :
    sameSpan a b = keyIs s e b := by
  simp only [keyIs, decide_eq_true_eq] at ha
  rw [sameSpan, keyIs, decide_eq_decide]
  constructor
  · rintro ⟨h1, h2⟩; omega
  · rintro ⟨h1, h2⟩; omega

theorem keyIs_congr_of_sameSpan {a b : SpanAssignment}
    (h : sameSpan a b = true) (s e : Nat) : keyIs s e a = keyIs s e b := by
  simp only [sameSpan, decide_eq_true_eq] at h
  rw [keyIs, keyIs, decide_eq_decide]
  constructor
  · rintro ⟨h1, h2⟩; omega
  · rintro ⟨h1, h2⟩; omega

/-- Filtering by an exact span commutes with the conflict-replacement map of
`insertCand`. -/
theorem filter_map_keyIs (acc : List SpanAssignment) (a : SpanAssignment) (s e : Nat) :
    ((acc.map (fun b =>
      if sameSpan a b && decide (b.confidence < a.confidence) then a else b)).filter
        (keyIs s e)) =
      (acc.filter (keyIs s e)).map (fun b =>
        if sameSpan a b && decide (b.confidence < a.confidence) then a else b) := by
  rw [List.filter_map]
  congr 1
  apply List.filter_congr
  intro b _
  show keyIs s e (if sameSpan a b && decide (b.confidence < a.confidence) then a else b)
      = keyIs s e b
  by_cases hs : sameSpan a b = true
  · by_cases hc : b.confidence < a.confidence
    · rw [if_pos (by simp [hs, hc])]
      exact keyIs_congr_of_sameSpan hs s e
    · rw [if_neg (by simp [hc])]
  · rw [if_neg (by simp [hs])]

/-- The exact effect of `insertCand` on the candidates filtered to one exact
span (assuming the span already occurs at most once in the accepted list). -/
theorem insertCand_filter (acc : List SpanAssignment) (a : SpanAssignment) (s e : Nat)
    (hU : (acc.filter (keyIs s e)).length ≤ 1) :
    (insertCand acc a).filter (keyIs s e) =
      if keyIs s e a = true then
        (match acc.filter (keyIs s e) with
         | [] => [a]
         | b :: _ =>
           [if sameSpan a b && decide (b.confidence < a.confidence) then a else b])
      else acc.filter (keyIs s e) := by
  by_cases hka : keyIs s e a = true
  · rw [if_pos hka]
    have hsame : ∀ b, sameSpan a b = keyIs s e b := sameSpan_eq_keyIs hka
    by_cases hany : acc.any (fun b => sameSpan a b) = true
    · unfold insertCand
      rw [if_pos hany, filter_map_keyIs]
      rcases hf : acc.filter (keyIs s e) with _ | ⟨b, bs⟩
      · exfalso
        obtain ⟨b, hb, hsb⟩ := List.any_eq_true.mp hany
        have hmem : b ∈ acc.filter (keyIs s e) :=
          List.mem_filter.mpr ⟨hb, by rw [← hsame b]; exact hsb⟩
        rw [hf] at hmem
        exact absurd hmem (List.not_mem_nil b)
      · have hbs : bs = [] := by
          have := hU
          rw [hf] at this
          simpa using List.length_eq_zero.mp (by simpa using this)
        subst hbs
        rfl
    · unfold insertCand
      rw [if_neg hany, List.filter_append]
      have hfe : acc.filter (keyIs s e) = [] := by
        rcases hf : acc.filter (keyIs s e) with _ | ⟨b, bs⟩
        · rfl
        · exfalso
          have hmem : b ∈ acc.filter (keyIs s e) := by rw [hf]; simp
          obtain ⟨hb, hkb⟩ := List.mem_filter.mp hmem
          exact hany (List.any_eq_true.mpr ⟨b, hb, by rw [hsame b]; exact hkb⟩)
      rw [hfe]
      simp [hka]
  · rw [if_neg hka]
    by_cases hany : acc.any (fun b => sameSpan a b) = true
    · unfold insertCand
      rw [if_pos hany, filter_map_keyIs]
      have hid : ∀ b ∈ acc.filter (keyIs s e),
          (if sameSpan a b && decide (b.confidence < a.confidence) then a else b) = b := by
        intro b hb
        obtain ⟨_, hkb⟩ := List.mem_filter.mp hb
        by_cases hs : sameSpan a b = true
        · exact absurd ((keyIs_congr_of_sameSpan hs s e).trans hkb) hka
        · rw [if_neg (by simp [hs])]
      exact (List.map_congr_left hid).trans (List.map_id _)
    · unfold insertCand
      rw [if_neg hany, List.filter_append]
      simp [hka]

theorem insertCand_spanUnique (acc : List SpanAssignment) (a : SpanAssignment)
    (hU : ∀ s e, (acc.filter (keyIs s e)).length ≤ 1) :
    ∀ s e, ((insertCand acc a).filter (keyIs s e)).length ≤ 1 := by
  intro s e
  rw [insertCand_filter acc a s e (hU s e)]
  by_cases hka : keyIs s e a = true
  · rw [if_pos hka]
    rcases acc.filter (keyIs s e) with _ | ⟨b, bs⟩ <;> simp
  · rw [if_neg hka]
    exact hU s e

/-- The accepted assignments at one exact span, after folding any candidate
list into an accepted list with at most one entry per span, are the
first-seen-max of that span's candidates. -/
theorem foldl_insertCand_filter (cands : List SpanAssignment) :
    ∀ (acc : List SpanAssignment),
      (∀ s e, (acc.filter (keyIs s e)).length ≤ 1) → ∀ s e,
      (List.foldl insertCand acc cands).filter (keyIs s e) =
        (bestCandidate ((acc.filter (keyIs s e)).head?)
          (cands.filter (keyIs s e))).toList := by
  induction cands with
  | nil =>
    intro acc hU s e
    rw [List.foldl_nil, List.filter_nil]
    rcases hf : acc.filter (keyIs s e) with _ | ⟨b, bs⟩
    · rfl
    · have hbs : bs = [] := by
        have := hU s e
        rw [hf] at this
        simpa using List.length_eq_zero.mp (by simpa using this)
      subst hbs
      rfl
  | cons a rest ih =>
    intro acc hU s e
    rw [List.foldl_cons, ih (insertCand acc a) (insertCand_spanUnique acc a hU) s e]
    congr 1
    rw [insertCand_filter acc a s e (hU s e)]
    by_cases hka : keyIs s e a = true
    · rw [if_pos hka, List.filter_cons_of_pos hka]
      rcases hf : acc.filter (keyIs s e) with _ | ⟨b, bs⟩
      · rfl
      · have hbs : bs = [] := by
          have := hU s e
          rw [hf] at this
          simpa using List.length_eq_zero.mp (by simpa using this)
        subst hbs
        have hkb : keyIs s e b = true := by
          have : b ∈ acc.filter (keyIs s e) := by rw [hf]; simp
          exact (List.mem_filter.mp this).2
        have hsame : sameSpan a b = true := by
          rw [sameSpan_eq_keyIs hka b]; exact hkb
        show bestCandidate (some (if sameSpan a b && decide (b.confidence < a.confidence)
          then a else b)) _ = bestCandidate (some b) (a :: _)
        rw [show bestCandidate (some b) (a :: List.filter (keyIs s e) rest) =
          bestCandidate (some (if b.confidence < a.confidence then a else b))
            (List.filter (keyIs s e) rest) from rfl]
        congr 2
        rw [hsame, Bool.true_and]
        by_cases hc : b.confidence < a.confidence
        · rw [if_pos (by simp [hc]), if_pos hc]
        · rw [if_neg (by simp [hc]), if_neg hc]
    · rw [if_neg hka, List.filter_cons_of_neg hka]

/-- The conflict-resolution contract over one exact span. -/
theorem resolveSpans_filter (cands : List SpanAssignment) (s e : Nat) :
    (resolveSpans cands).filter (keyIs s e) =
      (bestCandidate none (cands.filter (keyIs s e))).toList := by
  have h := foldl_insertCand_filter cands [] (by intro s e; simp) s e
  simpa [resolveSpans] using h

/-- **C1.** For every candidate set, the merger's conflict resolution
assigns each exact character span at most one accepted assignment — the
first-seen candidate of strictly greatest confidence for that span — and so
the merged output emits exactly one tag run for a span claimed with
different types by different chunks, as in the Apple
Corporation-vs-Fruit test, with no duplicate `B-`/`S-` tags. -/
theorem identical_span_one_type (cands : List SpanAssignment) :
    (∀ s e, (resolveSpans cands).filter (keyIs s e) =
      (bestCandidate none (cands.filter (keyIs s e))).toList) ∧
    (∀ a b, a ∈ resolveSpans cands → b ∈ resolveSpans cands →
      a.start = b.start → a.stop = b.stop → a = b) ∧
    merge "Talk about the new Apple iPhone today."
        [⟨[⟨"Corporation", "Apple"⟩], 15, 30⟩, ⟨[⟨"Fruit", "Apple"⟩], 0, 24⟩] =
      [("Talk", "O"), ("about", "O"), ("the", "O"), ("new", "O"),
       ("Apple", "S-Corporation"), ("iPhone", "O"), ("today", "O"), (".", "O")] ∧
    ((merge "The event is in New York City tomorrow."
        [⟨[⟨"Location", "New York City"⟩], 10, 35⟩,
         ⟨[⟨"Location", "New York City"⟩], 0, 25⟩]).filter
      (fun p => isBTag p.2)).length = 1 := by
  refine ⟨resolveSpans_filter cands, ?_, by rfl, by rfl⟩
  intro a b ha hb h1 h2
  have hka : keyIs a.start a.stop a = true := by simp [keyIs]
  have hkb : keyIs a.start a.stop b = true := by simp [keyIs, h1, h2]
  have hfa : a ∈ (resolveSpans cands).filter (keyIs a.start a.stop) :=
    List.mem_filter.mpr ⟨ha, hka⟩
  have hfb : b ∈ (resolveSpans cands).filter (keyIs a.start a.stop) :=
    List.mem_filter.mpr ⟨hb, hkb⟩
  rw [resolveSpans_filter] at hfa hfb
  cases hbest : bestCandidate none (cands.filter (keyIs a.start a.stop)) with
  | none => rw [hbest] at hfa; simp at hfa
  | some x =>
    rw [hbest] at hfa hfb
    simp at hfa hfb
    rw [hfa, hfb]

/-- Witness for C1: in the Apple conflict scenario's candidate set, the span
`(19, 24)` resolves to the single higher-confidence `Corporation`
assignment. -/
theorem identical_span_one_type_witness :
    (resolveSpans [⟨"Corporation", 19, 24, calculate_confidence 19 15 30⟩,
                   ⟨"Fruit", 19, 24, calculate_confidence 19 0 24⟩]).filter
        (keyIs 19 24) =
      [⟨"Corporation", 19, 24, calculate_confidence 19 15 30⟩] ∧
    (⟨"Corporation", 19, 24, calculate_confidence 19 15 30⟩ : SpanAssignment) =
      ⟨"Corporation", 19, 24, calculate_confidence 19 15 30⟩ := by
  constructor
  · rw [(identical_span_one_type
      [⟨"Corporation", 19, 24, calculate_confidence 19 15 30⟩,
       ⟨"Fruit", 19, 24, calculate_confidence 19 0 24⟩]).1 19 24]
    decide
  · exact (identical_span_one_type
      [⟨"Corporation", 19, 24, calculate_confidence 19 15 30⟩,
       ⟨"Fruit", 19, 24, calculate_confidence 19 0 24⟩]).2.1
      ⟨"Corporation", 19, 24, calculate_confidence 19 15 30⟩
      ⟨"Corporation", 19, 24, calculate_confidence 19 15 30⟩
      (by decide) (by decide) rfl rfl

/-! ## Claim C5: BIOES round trip -/

/-- The BIOES tag sequence of one token run of length `len`. -/
def biesTags (ty : String) (len : Nat) : List String :=
  (List.range len).map (fun k => biesTag ty k len)

/-- The per-token optional-tag state after emitting a position-sorted list
of assignments with their token runs `(assignment, run_start, run_length)`:
`none` gaps between the runs' BIOES blocks. -/
def buildOpt (n : Nat) : Nat → List (SpanAssignment × Nat × Nat) → List (Option String)
  | pos, [] => List.replicate (n - pos) none
  | pos, (a, lo, len) :: rest =>
    List.replicate (lo - pos) none ++ (biesTags a.type len).map some ++
      buildOpt n (lo + len) rest

/-- The final tag list corresponding to `buildOpt`: `O` gaps between the
runs' BIOES blocks. -/
def buildTagList (n : Nat) : Nat → List (SpanAssignment × Nat × Nat) → List String
  | pos, [] => List.replicate (n - pos) "O"
  | pos, (a, lo, len) :: rest =>
    List.replicate (lo - pos) "O" ++ biesTags a.type len ++
      buildTagList n (lo + len) rest

/-- Well-formedness of a token-run list over `n` tokens starting at `pos`:
runs are position-sorted, pairwise disjoint, non-empty, and in range. -/
def chainOk (n : Nat) : Nat → List (Nat × Nat) → Bool
  | _, [] => true
  | pos, (lo, len) :: rest =>
    decide (pos ≤ lo ∧ 1 ≤ len ∧ lo + len ≤ n) && chainOk n (lo + len) rest

/-- Each assignment's covered-token index list is exactly its recorded
contiguous run. -/
def runsMatch (tokens : List Token) : List (SpanAssignment × Nat × Nat) → Bool
  | [] => true
  | (a, lo, len) :: rest =>
    (spanTokens tokens a == List.range' lo len) && runsMatch tokens rest

theorem biesTags_length (ty : String) (len : Nat) : (biesTags ty len).length = len := by
  simp [biesTags]

theorem mapWithIdx_append (f : Nat → α → β) (l1 l2 : List α) (i : Nat) :
    mapWithIdx f (l1 ++ l2) i = mapWithIdx f l1 i ++ mapWithIdx f l2 (i + l1.length) := by
  induction l1 generalizing i with
  | nil => simp [mapWithIdx]
  | cons x xs ih =>
    simp only [List.cons_append, mapWithIdx, List.length_cons]
    rw [show xs.append l2 = xs ++ l2 from rfl, ih]
    have h : i + 1 + xs.length = i + (xs.length + 1) := by omega
    rw [h]

theorem mapWithIdx_ite_of_none (p : Nat → Prop) [DecidablePred p] (g : Nat → α)
    (l : List α) (i : Nat) (h : ∀ j, i ≤ j → j < i + l.length → ¬ p j) :
    mapWithIdx (fun j t => if p j then g j else t) l i = l := by
  induction l generalizing i with
  | nil => rfl
  | cons x xs ih =>
    simp only [mapWithIdx]
    rw [if_neg (h i (le_refl i) (by simp)),
      ih (i + 1) (fun j h1 h2 => h j (by omega) (by simp at h2 ⊢; omega))]

theorem mapWithIdx_ite_of_mem (p : Nat → Prop) [DecidablePred p] (g : Nat → α)
    (c : α) (m : Nat) : ∀ (i : Nat), (∀ j, i ≤ j → j < i + m → p j) →
    mapWithIdx (fun j t => if p j then g j else t) (List.replicate m c) i =
      (List.range' i m).map g := by
  induction m with
  | zero => intro i h; rfl
  | succ m ih =>
    intro i h
    rw [List.replicate_succ]
    simp only [mapWithIdx]
    rw [if_pos (h i (le_refl i) (by omega)),
      ih (i + 1) (fun j h1 h2 => h j (by omega) (by omega))]
    rfl

theorem getD_append_replicate_none (A : List (Option String)) (m i : Nat)
    (h : A.length ≤ i) :
    (A ++ List.replicate m (none : Option String)).getD i none = none := by
  rw [List.getD_eq_getElem?_getD, List.getElem?_append_right h, List.getElem?_replicate]
  by_cases hm : i - A.length < m <;> simp [hm]

theorem range'_indexOf (len : Nat) : ∀ (lo i : Nat), lo ≤ i → i < lo + len →
    (List.range' lo len).indexOf i = i - lo := by
  induction len with
  | zero => intro lo i h1 h2; omega
  | succ len ih =>
    intro lo i h1 h2
    rw [List.range'_succ, List.indexOf_cons]
    by_cases he : lo = i
    · simp [he]
    · rw [show ((lo == i) = false) by simp [he]]
      simp only [Bool.cond_false]
      rw [ih (lo + 1) i (by omega) (by omega)]
      omega

theorem applyAssignment_shape (tokens : List Token) (a : SpanAssignment)
    (A : List (Option String)) (m lo len : Nat)
    (hspan : spanTokens tokens a = List.range' lo len)
    (hp : A.length ≤ lo) (hlen : lo + len ≤ A.length + m) :
    applyAssignment tokens (A ++ List.replicate m none) a =
      A ++ (List.replicate (lo - A.length) none ++ (biesTags a.type len).map some ++
        List.replicate (A.length + m - (lo + len)) none) := by
  simp only [applyAssignment, hspan]
  have hrun : (List.range' lo len).filter
      (fun i => (((A ++ List.replicate m none).getD i none).isNone)) =
      List.range' lo len := by
    rw [List.filter_eq_self]
    intro i hi
    rw [getD_append_replicate_none A m i (by
      have := (List.mem_range'_1.mp hi).1
      omega)]
    rfl
  rw [hrun]
  rw [mapWithIdx_append, Nat.zero_add]
  rw [mapWithIdx_ite_of_none _ _ A 0 (by
    intro j _ hj
    simp only [Nat.zero_add] at hj
    intro hmem
    have := (List.mem_range'_1.mp hmem).1
    omega)]
  have hm : m = (lo - A.length) + (len + (A.length + m - (lo + len))) := by omega
  rw [hm, List.replicate_add, List.replicate_add, mapWithIdx_append, mapWithIdx_append]
  rw [mapWithIdx_ite_of_none _ _ (List.replicate (lo - A.length) none) A.length (by
    intro j _ hj
    simp only [List.length_replicate] at hj
    intro hmem
    have := (List.mem_range'_1.mp hmem).1
    omega)]
  rw [List.length_replicate]
  rw [show A.length + (lo - A.length) = lo from by omega]
  rw [mapWithIdx_ite_of_mem _ _ _ len lo (by
    intro j h1 h2
    exact List.mem_range'_1.mpr ⟨h1, h2⟩)]
  rw [List.length_replicate]
  rw [mapWithIdx_ite_of_none _ _
    (List.replicate (A.length + m - (lo + len)) none) (lo + len) (by
    intro j hj _
    intro hmem
    have := (List.mem_range'_1.mp hmem).2
    omega)]
  have hzone2 : (List.range' lo len).map (fun i =>
      some (biesTag a.type ((List.range' lo len).indexOf i) (List.range' lo len).length)) =
      (biesTags a.type len).map some := by
    rw [List.length_range']
    rw [List.map_congr_left (fun j hj => by
      rw [range'_indexOf len lo j (List.mem_range'_1.mp hj).1 (List.mem_range'_1.mp hj).2])]
    rw [List.range'_eq_map_range, List.map_map]
    rw [biesTags, List.map_map]
    apply List.map_congr_left
    intro k hk
    simp [Function.comp, show lo + k - lo = k from by omega]
  rw [hzone2]
  simp [List.append_assoc]
  omega

theorem foldl_applyAssignment_shape (tokens : List Token) :
    ∀ (items : List (SpanAssignment × Nat × Nat)) (A : List (Option String)) (m : Nat),
      runsMatch tokens items = true →
      chainOk (A.length + m) A.length (items.map Prod.snd) = true →
      List.foldl (applyAssignment tokens) (A ++ List.replicate m none)
        (items.map Prod.fst) = A ++ buildOpt (A.length + m) A.length items := by
  intro items
  induction items with
  | nil =>
    intro A m _ _
    simp [buildOpt]
  | cons x rest ih =>
    obtain ⟨a, lo, len⟩ := x
    intro A m hrm hck
    simp only [runsMatch, Bool.and_eq_true, beq_iff_eq] at hrm
    obtain ⟨hspan, hrm2⟩ := hrm
    simp only [List.map_cons, chainOk, Bool.and_eq_true, decide_eq_true_eq] at hck
    obtain ⟨⟨hp, h1, h2⟩, hck2⟩ := hck
    rw [List.map_cons, List.foldl_cons]
    rw [applyAssignment_shape tokens a A m lo len hspan hp h2]
    rw [show A ++ (List.replicate (lo - A.length) none ++ (biesTags a.type len).map some ++
        List.replicate (A.length + m - (lo + len)) none) =
        (A ++ (List.replicate (lo - A.length) none ++ (biesTags a.type len).map some)) ++
        List.replicate (A.length + m - (lo + len)) none from by
      simp [List.append_assoc]]
    have hA2 : (A ++ (List.replicate (lo - A.length) none ++
        (biesTags a.type len).map some)).length = lo + len := by
      simp [biesTags_length]
      omega
    rw [ih (A ++ (List.replicate (lo - A.length) none ++ (biesTags a.type len).map some))
      (A.length + m - (lo + len)) hrm2 (by
        rw [hA2, show (lo + len) + (A.length + m - (lo + len)) = A.length + m from by omega]
        exact hck2)]
    rw [hA2, show (lo + len) + (A.length + m - (lo + len)) = A.length + m from by omega]
    rw [show buildOpt (A.length + m) A.length ((a, lo, len) :: rest) =
        List.replicate (lo - A.length) none ++ (biesTags a.type len).map some ++
          buildOpt (A.length + m) (lo + len) rest from rfl]
    simp [List.append_assoc]

theorem emitTags_shape (tokens : List Token)
    (items : List (SpanAssignment × Nat × Nat))
    (hrm : runsMatch tokens items = true)
    (hck : chainOk tokens.length 0 (items.map Prod.snd) = true) :
    emitTags tokens (items.map Prod.fst) =
      (buildOpt tokens.length 0 items).map (fun o => o.getD "O") := by
  unfold emitTags
  have h := foldl_applyAssignment_shape tokens items [] tokens.length hrm (by
    simpa using hck)
  simp only [List.nil_append] at h
  rw [h]
  simp

theorem buildOpt_map_getD (n : Nat) :
    ∀ (items : List (SpanAssignment × Nat × Nat)) (pos : Nat),
      (buildOpt n pos items).map (fun o => o.getD "O") = buildTagList n pos items := by
  intro items
  induction items with
  | nil => intro pos; simp [buildOpt, buildTagList]
  | cons x rest ih =>
    obtain ⟨a, lo, len⟩ := x
    intro pos
    simp only [buildOpt, buildTagList, List.map_append, List.map_replicate,
      Option.getD_none, ih (lo + len), List.map_map]
    have heq : (biesTags a.type len).map ((fun o => Option.getD o "O") ∘ some) =
        biesTags a.type len :=
      (List.map_congr_left (fun s _ => rfl)).trans (List.map_id _)
    rw [heq]

theorem tagKind_B (ty : String) : tagKind ("B-" ++ ty) = some ('B', ty) := by
  have h : ("B-" ++ ty).data = 'B' :: '-' :: ty.data := by
    rw [String.data_append]
    rfl
  unfold tagKind
  rw [h]
  rfl

theorem tagKind_I (ty : String) : tagKind ("I-" ++ ty) = some ('I', ty) := by
  have h : ("I-" ++ ty).data = 'I' :: '-' :: ty.data := by
    rw [String.data_append]
    rfl
  unfold tagKind
  rw [h]
  rfl

theorem tagKind_E (ty : String) : tagKind ("E-" ++ ty) = some ('E', ty) := by
  have h : ("E-" ++ ty).data = 'E' :: '-' :: ty.data := by
    rw [String.data_append]
    rfl
  unfold tagKind
  rw [h]
  rfl

theorem tagKind_S (ty : String) : tagKind ("S-" ++ ty) = some ('S', ty) := by
  have h : ("S-" ++ ty).data = 'S' :: '-' :: ty.data := by
    rw [String.data_append]
    rfl
  unfold tagKind
  rw [h]
  rfl

theorem bioresAux_O (st : Option (String × List String)) (tok : String)
    (rest : List (String × String)) :
    bioresAux st ((tok, "O") :: rest) = bioresAux st rest := by
  cases st with
  | none => rfl
  | some p =>
    obtain ⟨ty0, acc⟩ := p
    rfl

theorem bioresAux_B (tok ty : String) (rest : List (String × String)) :
    bioresAux none ((tok, "B-" ++ ty) :: rest) = bioresAux (some (ty, [tok])) rest := rfl

theorem bioresAux_I (tok ty ty0 : String) (acc : List String)
    (rest : List (String × String)) :
    bioresAux (some (ty0, acc)) ((tok, "I-" ++ ty) :: rest) =
      bioresAux (some (ty0, acc ++ [tok])) rest := rfl

theorem bioresAux_E (tok ty ty0 : String) (acc : List String)
    (rest : List (String × String)) :
    bioresAux (some (ty0, acc)) ((tok, "E-" ++ ty) :: rest) =
      ⟨ty0, joinSpace (acc ++ [tok])⟩ :: bioresAux none rest := rfl

theorem bioresAux_S (tok ty : String) (rest : List (String × String)) :
    bioresAux none ((tok, "S-" ++ ty) :: rest) = ⟨ty, tok⟩ :: bioresAux none rest := rfl

theorem zip_replicate_snd (c : β) :
    ∀ (l : List α), l.zip (List.replicate l.length c) = l.map (fun x => (x, c))
  | [] => rfl
  | x :: xs => by
    rw [List.length_cons, List.replicate_succ, List.zip_cons_cons, List.map_cons,
      zip_replicate_snd c xs]

theorem decode_O_block (st : Option (String × List String)) :
    ∀ (xs : List String) (rest : List (String × String)),
      bioresAux st ((xs.map (fun x => (x, "O"))) ++ rest) = bioresAux st rest := by
  intro xs
  induction xs generalizing st with
  | nil => intro rest; rfl
  | cons x xs ih =>
    intro rest
    rw [List.map_cons, List.cons_append, bioresAux_O, ih st rest]

theorem biesTags_one (ty : String) : biesTags ty 1 = ["S-" ++ ty] := rfl

theorem biesTags_shape (ty : String) (len : Nat) (h : 2 ≤ len) :
    biesTags ty len = ("B-" ++ ty) ::
      (List.replicate (len - 2) ("I-" ++ ty) ++ [("E-" ++ ty)]) := by
  obtain ⟨m, rfl⟩ : ∃ m, len = m + 2 := ⟨len - 2, by omega⟩
  unfold biesTags
  rw [List.range_eq_range', List.range'_concat, List.range'_succ, List.map_append,
    List.map_cons]
  rw [show biesTag ty 0 (m + 2) = "B-" ++ ty from by
    simp [biesTag, show m + 2 ≠ 1 from by omega]]
  rw [show (0 + 1 * (m + 1)) = m + 1 from by omega]
  rw [show List.map (fun k => biesTag ty k (m + 2)) [m + 1] = [("E-" ++ ty)] from by
    simp only [List.map_cons, List.map_nil]
    rw [show biesTag ty (m + 1) (m + 2) = "E-" ++ ty from by
      unfold biesTag
      rw [if_neg (by omega : ¬(m + 2 = 1)), if_neg (by omega : ¬(m + 1 = 0)),
        if_pos (by omega : m + 1 = m + 2 - 1)]]]
  rw [show List.map (fun k => biesTag ty k (m + 2)) (List.range' 1 m) =
      List.replicate m ("I-" ++ ty) from by
    rw [List.map_congr_left (fun k hk => by
      have hk2 := List.mem_range'_1.mp hk
      show biesTag ty k (m + 2) = "I-" ++ ty
      unfold biesTag
      rw [if_neg (by omega : ¬(m + 2 = 1)), if_neg (by omega : ¬(k = 0)),
        if_neg (by omega : ¬(k = m + 2 - 1))])]
    rw [List.map_const', List.length_range']]
  rw [show m + 2 - 2 = m from by omega]
  rfl

theorem decode_inner (ty : String) :
    ∀ (zs : List String) (acc : List String) (z : String)
      (rest : List (String × String)),
      bioresAux (some (ty, acc))
          ((zs.map (fun w => (w, "I-" ++ ty))) ++ (z, "E-" ++ ty) :: rest) =
        ⟨ty, joinSpace (acc ++ zs ++ [z])⟩ :: bioresAux none rest := by
  intro zs
  induction zs with
  | nil =>
    intro acc z rest
    simp only [List.map_nil, List.nil_append, List.append_nil]
    rw [bioresAux_E]
  | cons w zs ih =>
    intro acc z rest
    simp only [List.map_cons, List.cons_append]
    rw [bioresAux_I, ih (acc ++ [w]) z rest]
    congr 2
    simp

theorem decode_run (ty : String) (ys : List String) (len : Nat)
    (hlen : ys.length = len) (h1 : 1 ≤ len) (rest : List (String × String)) :
    bioresAux none ((ys.zip (biesTags ty len)) ++ rest) =
      ⟨ty, joinSpace ys⟩ :: bioresAux none rest := by
  by_cases h2 : len = 1
  · subst h2
    obtain ⟨y, rfl⟩ := List.length_eq_one.mp hlen
    rw [biesTags_one]
    show bioresAux none ((y, "S-" ++ ty) :: rest) = _
    rw [bioresAux_S]
    rfl
  · have h3 : 2 ≤ len := by omega
    rw [biesTags_shape ty len h3]
    cases ys with
    | nil => simp at hlen; omega
    | cons y ys2 =>
      have hys2 : ys2 ≠ [] := by
        intro he
        rw [he] at hlen
        simp at hlen
        omega
      obtain ⟨zs, z, rfl⟩ : ∃ zs z, ys2 = zs ++ [z] :=
        ⟨ys2.dropLast, ys2.getLast hys2, (List.dropLast_append_getLast hys2).symm⟩
      have hzs : zs.length = len - 2 := by
        simp at hlen
        omega
      rw [List.zip_cons_cons]
      rw [List.zip_append (by simp [hzs])]
      rw [show len - 2 = zs.length from hzs.symm, zip_replicate_snd]
      show bioresAux none ((y, "B-" ++ ty) ::
        (zs.map (fun x => (x, "I-" ++ ty)) ++ [(z, "E-" ++ ty)] ++ rest)) = _
      rw [bioresAux_B]
      rw [show zs.map (fun x => (x, "I-" ++ ty)) ++ [(z, "E-" ++ ty)] ++ rest =
        zs.map (fun x => (x, "I-" ++ ty)) ++ ((z, "E-" ++ ty) :: rest) from by
          simp [List.append_assoc]]
      rw [decode_inner ty zs [y] z rest]
      rfl

theorem decode_buildTagList (n : Nat) :
    ∀ (items : List (SpanAssignment × Nat × Nat)) (pos : Nat) (texts : List String),
      texts.length = n →
      chainOk n pos (items.map Prod.snd) = true →
      bioresAux none ((texts.drop pos).zip (buildTagList n pos items)) =
        items.map (fun x =>
          ⟨x.1.type, joinSpace ((texts.drop x.2.1).take x.2.2)⟩) := by
  intro items
  induction items with
  | nil =>
    intro pos texts hl _
    show bioresAux none ((texts.drop pos).zip (List.replicate (n - pos) "O")) = []
    have hdl : (texts.drop pos).length = n - pos := by simp [hl]
    rw [← hdl, zip_replicate_snd]
    have hOB := decode_O_block none (texts.drop pos) []
    rw [List.append_nil] at hOB
    rw [hOB]
    rfl
  | cons x rest ih =>
    obtain ⟨a, lo, len⟩ := x
    intro pos texts hl hck
    simp only [List.map_cons, chainOk, Bool.and_eq_true, decide_eq_true_eq] at hck
    obtain ⟨⟨hp, h1, h2⟩, hck2⟩ := hck
    have hsplit1 : texts.drop pos =
        (texts.drop pos).take (lo - pos) ++ (texts.drop lo ) := by
      rw [show texts.drop lo = (texts.drop pos).drop (lo - pos) from by
        rw [List.drop_drop, show pos + (lo - pos) = lo from by omega]]
      rw [List.take_append_drop]
    have hsplit2 : texts.drop lo =
        (texts.drop lo).take len ++ texts.drop (lo + len) := by
      rw [show texts.drop (lo + len) = (texts.drop lo).drop len from by
        rw [List.drop_drop]]
      rw [List.take_append_drop]
    have hlen1 : ((texts.drop pos).take (lo - pos)).length = lo - pos := by
      simp [hl]
      omega
    have hlen2 : ((texts.drop lo).take len).length = len := by
      simp [hl]
      omega
    show bioresAux none ((texts.drop pos).zip
      (List.replicate (lo - pos) "O" ++ biesTags a.type len ++
        buildTagList n (lo + len) rest)) = _
    rw [show List.replicate (lo - pos) "O" ++ biesTags a.type len ++
        buildTagList n (lo + len) rest =
        List.replicate (lo - pos) "O" ++ (biesTags a.type len ++
          buildTagList n (lo + len) rest) from by simp [List.append_assoc]]
    conv_lhs => rw [hsplit1, hsplit2]
    rw [List.zip_append (by simp [hlen1])]
    rw [List.zip_append (by simp [hlen2, biesTags_length])]
    rw [show ((texts.drop pos).take (lo - pos)).zip (List.replicate (lo - pos) "O") =
        ((texts.drop pos).take (lo - pos)).map (fun x => (x, "O")) from by
      have hz := zip_replicate_snd "O" ((texts.drop pos).take (lo - pos))
      rw [hlen1] at hz
      exact hz]
    rw [decode_O_block]
    rw [decode_run a.type ((texts.drop lo).take len) len hlen2 h1]
    rw [ih (lo + len) texts hl hck2]
    rfl

/-- **C5 counterexample.** The claim as stated — that
`tags_to_entities(entities_to_tags(text, assignments))` recovers exactly the
accepted entities' `(type, text)` pairs — fails on the concrete input
`"Jean-Pierre"` with the single assignment `Personne@[0,11)`: the span's
literal text is `"Jean-Pierre"`, but the decoder space-joins the three
covered tokens and yields `"Jean - Pierre"`. -/
theorem biores_round_trip_counterexample :
    entities_to_tags "Jean-Pierre" [⟨"Personne", 0, 11, 1⟩] =
      [("Jean", "B-Personne"), ("-", "I-Personne"), ("Pierre", "E-Personne")] ∧
    String.mk ("Jean-Pierre".data.take 11) = "Jean-Pierre" ∧
    biores_to_entities (entities_to_tags "Jean-Pierre" [⟨"Personne", 0, 11, 1⟩]) =
      [⟨"Personne", "Jean - Pierre"⟩] ∧
    ¬ (biores_to_entities (entities_to_tags "Jean-Pierre" [⟨"Personne", 0, 11, 1⟩]) =
      [⟨"Personne", "Jean-Pierre"⟩]) := by
  refine ⟨by decide, by decide, by decide, by decide⟩

/-- **C5 (amended).** For every text and every position-sorted,
non-overlapping, token-aligned set of span assignments (each assignment's
covered-token index list being a non-empty contiguous run, runs pairwise
disjoint and in range), decoding the encoded tag sequence recovers exactly,
in order, one `(type, text)` pair per assignment, where the text is the
space-join of the covered tokens' texts; this equals the original span's
literal text exactly when that text is the single-space join of its tokens
(e.g. `"John Doe"`), but not for entities with intra-word punctuation such
as `"Jean-Pierre"`, which decodes as `"Jean - Pierre"`. -/
theorem biores_round_trip (fullText : String)
    (items : List (SpanAssignment × Nat × Nat))
    (hrm : runsMatch (tokenize fullText.data) items = true)
    (hck : chainOk (tokenize fullText.data).length 0 (items.map Prod.snd) = true) :
    biores_to_entities (entities_to_tags fullText (items.map Prod.fst)) =
      items.map (fun x =>
        ⟨x.1.type,
          joinSpace ((((tokenize fullText.data).map Token.text).drop x.2.1).take
            x.2.2)⟩) := by
  unfold biores_to_entities entities_to_tags
  simp only []
  rw [emitTags_shape (tokenize fullText.data) items hrm hck, buildOpt_map_getD]
  have h := decode_buildTagList (tokenize fullText.data).length items 0
    ((tokenize fullText.data).map Token.text) (by simp) hck
  rw [List.drop_zero] at h
  exact h

/-- Witness for the amended C5 at the happy-path test input: two
space-joinable assignments round-trip to their original `(type, text)`
pairs. -/
theorem biores_round_trip_witness :
    biores_to_entities (entities_to_tags "John Doe lives in New York."
        [⟨"Person", 0, 8, 1⟩, ⟨"Location", 18, 26, 1⟩]) =
      [⟨"Person", "John Doe"⟩, ⟨"Location", "New York"⟩] := by
  have h := biores_round_trip "John Doe lives in New York."
    [(⟨"Person", 0, 8, 1⟩, 0, 2), (⟨"Location", 18, 26, 1⟩, 4, 2)]
    (by decide) (by decide)
  exact h.trans (by decide)

end PyNER
